import Mathlib

/-!
Verification development for SpreaderDetectorBackend (C source:
SpreaderDetectorBackend.c together with SpreaderDetectorParams.h).

Embedding conventions:
- The array of `Person` structs is modelled as a `List Person`; in-place array
  writes become `List.set`.
- C `float` values and `float` arithmetic are modelled exactly over `ℚ`
  (the idealisation of the floating point data; float literals such as
  `0.3f` become the corresponding rational).
- `unsigned long int` is modelled as `Nat`; where the source performs
  wrapping machine arithmetic (the subtraction and the narrowing conversion
  to `int` inside `idCompare`) the wrap is written out as `% 2 ^ 64` and
  `% 2 ^ 32`, following the LP64 model (64-bit `unsigned long`, 32-bit
  `int`) and the usual modular behaviour of the narrowing conversion.
- Recursions of the source that are not structurally decreasing
  (`binarySearchById`, `mergeSort`, `merge`) take an explicit fuel
  parameter; the wrappers pass fuel that is provably sufficient on every
  input on which the source recursion terminates, so with that fuel the
  embedding computes exactly what the source computes.
- File handles and I/O are out of scope: a parsed meetings file is the
  optional first line (the sick id) paired with the list of parsed meeting
  lines, a parsed people file is the list of token lists produced by
  `strtok` with separator `" "`, and the output file is the list of emitted
  records (message template, name, id).
- Fallible code paths (undefined behaviour such as `strtok` returning NULL
  into `strtol`, or a `binarySearchById` call on an id that is absent,
  which in the source reads out of bounds or fails to terminate) are
  modelled as `Option` with value `none`.
-/

namespace SpreaderDetector

/-- Person struct of SpreaderDetectorBackend.c lines 112 to 118: name, id
(unsigned long), age (float) and probability (float, modelled over ℚ). -/
structure Person where
  name : String
  id : Nat
  age : ℚ
  probability : ℚ
deriving DecidableEq

/-- Meeting line of the meetings file as parsed by probUpdater lines 497
to 502: infector id, infected id, distance and duration. -/
structure Meeting where
  infectorId : Nat
  infectedId : Nat
  distance : ℚ
  time : ℚ
deriving DecidableEq

/-- Constant EPSILON of SpreaderDetectorBackend.c line 71. -/
def EPSILON : ℚ := 1 / 1000000000

/-- Constant MIN_DISTANCE of SpreaderDetectorParams.h line 7. -/
def MIN_DISTANCE : ℚ := 1

/-- Constant MAX_TIME of SpreaderDetectorParams.h line 13. -/
def MAX_TIME : ℚ := 30

/-- Constant REGULAR_QUARANTINE_THRESHOLD of SpreaderDetectorParams.h
line 30. -/
def REGULAR_QUARANTINE_THRESHOLD : ℚ := 1 / 10

/-- Constant MEDICAL_SUPERVISION_THRESHOLD of SpreaderDetectorParams.h
line 37. -/
def MEDICAL_SUPERVISION_THRESHOLD : ℚ := 3 / 10

/-- Constant EQUAL of SpreaderDetectorBackend.c line 76. -/
def EQUAL : Int := 0

/-- Constant GREATER of SpreaderDetectorBackend.c line 81. -/
def GREATER : Int := 1

/-- Constant SMALLER of SpreaderDetectorBackend.c line 86. -/
def SMALLER : Int := -1

/-- Function crna of SpreaderDetectorBackend.c lines 304 to 309: the
transmission factor (time * MIN_DISTANCE) / (dist * MAX_TIME). The source
performs the float division unconditionally; a zero denominator is not
guarded (IEEE arithmetic would yield Inf or NaN there, the exact model
yields the ℚ junk value 0). -/
def crna (dist time : ℚ) : ℚ :=
  let numerator := time * MIN_DISTANCE
  let denominator := dist * MAX_TIME
  numerator / denominator

/-- Narrowing conversion of a 64-bit unsigned value to a 32-bit signed int,
as performed implicitly by the return statement of idCompare (line 315):
reduce modulo 2 ^ 32 and reinterpret the leading bit as the sign. -/
def toInt32 (n : Nat) : Int :=
  if n % 2 ^ 32 < 2 ^ 31 then ((n % 2 ^ 32 : Nat) : Int)
  else ((n % 2 ^ 32 : Nat) : Int) - 2 ^ 32

/-- Wrapping 64-bit unsigned subtraction, the semantics of id1 - id2 at
line 315 where both operands are unsigned long. -/
def usub64 (a b : Nat) : Nat :=
  (2 ^ 64 + a % 2 ^ 64 - b % 2 ^ 64) % 2 ^ 64

/-- Function idCompare of SpreaderDetectorBackend.c lines 311 to 316:
returns id1 - id2, an unsigned 64-bit subtraction narrowed to int. -/
def idCompare (a b : Person) : Int :=
  let id1 := a.id
  let id2 := b.id
  toInt32 (usub64 id1 id2)

/-- Function probCompare of SpreaderDetectorBackend.c lines 318 to 334:
epsilon-tolerant three-way comparison of the probability fields. -/
def probCompare (a b : Person) : Int :=
  let id1 := a.probability
  let id2 := b.probability
  if |id1 - id2| < EPSILON then EQUAL
  else if id1 > id2 then GREATER
  else SMALLER

/-- Function merge of SpreaderDetectorBackend.c lines 336 to 367, with
fuel. The source loop walks both sub-arrays with cursors aI and bI,
taking from the first exactly when comp says strictly smaller, then copies
the remaining tail; functionally that is this two-list merge. Fuel at
least the sum of the lengths reproduces the source exactly. -/
def mergeAux (comp : Person → Person → Int) :
    Nat → List Person → List Person → List Person
  | 0, a, b => a ++ b
  | _ + 1, [], b => b
  | _ + 1, x :: a, [] => x :: a
  | fuel + 1, x :: a, y :: b =>
    if comp x y < 0 then x :: mergeAux comp fuel a (y :: b)
    else y :: mergeAux comp fuel (x :: a) b

/-- Wrapper supplying sufficient fuel to `mergeAux`. -/
def merge (comp : Person → Person → Int) (a b : List Person) : List Person :=
  mergeAux comp (a.length + b.length) a b

/-- Function mergeSort of SpreaderDetectorBackend.c lines 369 to 388, with
fuel. The source: return when length < 1; split at aLen = length / 2 (when
aLen = 0 the remaining half is also emptied, so a singleton is returned
unchanged); recursively sort the two halves in place, copy the range into
the draft buffer and merge the two sorted halves back. On disjoint
subranges the in-place recursion is exactly this functional recursion on
`take` and `drop`. Fuel at least the length reproduces the source. -/
def mergeSortAux (comp : Person → Person → Int) :
    Nat → List Person → List Person
  | 0, peopleList => peopleList
  | fuel + 1, peopleList =>
    if peopleList.length < 1 then peopleList
    else if peopleList.length / 2 = 0 then peopleList
    else
      merge comp (mergeSortAux comp fuel (peopleList.take (peopleList.length / 2)))
        (mergeSortAux comp fuel (peopleList.drop (peopleList.length / 2)))

/-- Wrapper supplying sufficient fuel to `mergeSortAux`. -/
def mergeSort (comp : Person → Person → Int) (peopleList : List Person) :
    List Person :=
  mergeSortAux comp peopleList.length peopleList

/-- Default value returned by out-of-range reads in the model. -/
def defaultPerson : Person := ⟨"", 0, 0, 0⟩

/-- Function binarySearchById of SpreaderDetectorBackend.c lines 478 to
493, with fuel (the source recursion has no base case for an exhausted
range: on an absent id it reads out of bounds and never terminates, which
the model captures as `none` on fuel exhaustion). Index arithmetic is C
int arithmetic: mid = start + (stop - start) / 2 with truncating division
(`Int.tdiv`). -/
def binarySearchById (peopleList : List Person) (idToFind : Nat) :
    Nat → Int → Int → Option Int
  | 0, _, _ => none
  | fuel + 1, start, stop =>
    let mid := start + Int.tdiv (stop - start) 2
    let p := peopleList.getD mid.toNat defaultPerson
    if p.id = idToFind then some mid
    else if p.id > idToFind then
      binarySearchById peopleList idToFind fuel start (mid - 1)
    else
      binarySearchById peopleList idToFind fuel (mid + 1) stop

/-- Function probUpdater of SpreaderDetectorBackend.c lines 495 to 505:
resolve infector and infected through binarySearchById over the whole
id-sorted array (inclusive bounds 0 and size - 1), compute the factor with
crna and overwrite the probability of the infected person with
infector.probability * factor. The parsing of the four fields out of the
raw line by strtok, strtol and strtof is modelled by the `Meeting`
record; a search that would not terminate in the source is `none`. -/
def probUpdater (peopleList : List Person) (line : Meeting) :
    Option (List Person) :=
  let n := peopleList.length
  match binarySearchById peopleList line.infectorId (n + 1) 0 ((n : Int) - 1),
      binarySearchById peopleList line.infectedId (n + 1) 0 ((n : Int) - 1) with
  | some infectorIdx, some infectedIdx =>
    let prob := crna line.distance line.time
    let infector := peopleList.getD infectorIdx.toNat defaultPerson
    let infected := peopleList.getD infectedIdx.toNat defaultPerson
    some (peopleList.set infectedIdx.toNat
      { infected with probability := infector.probability * prob })
  | _, _ => none

/-- While loop of readMeetingsFile (SpreaderDetectorBackend.c lines 521 to
524): apply probUpdater to each meeting line in file order. -/
def processMeetings : List Person → List Meeting → Option (List Person)
  | peopleList, [] => some peopleList
  | peopleList, line :: rest =>
    match probUpdater peopleList line with
    | some updated => processMeetings updated rest
    | none => none

/-- Function readMeetingsFile of SpreaderDetectorBackend.c lines 507 to
530: an empty file returns the list unchanged; otherwise the first line is
the sick id, whose probability is set to 1, and each further line is fed
to probUpdater in file order. -/
def readMeetingsFile (peopleList : List Person) :
    Option (Nat × List Meeting) → Option (List Person)
  | none => some peopleList
  | some (sickId, meetings) =>
    let n := peopleList.length
    match binarySearchById peopleList sickId (n + 1) 0 ((n : Int) - 1) with
    | none => none
    | some sickPersonIndex =>
      let sick := peopleList.getD sickPersonIndex.toNat defaultPerson
      processMeetings
        (peopleList.set sickPersonIndex.toNat { sick with probability := 1 })
        meetings

/-- Value of the digit string at the front of a character list, the
accumulating loop inside strtol and strtof. -/
def natOfDigits : List Char → Nat → Nat
  | [], acc => acc
  | c :: cs, acc =>
    if c.isDigit then natOfDigits cs (acc * 10 + (c.toNat - 48)) else acc

/-- Model of the C library strtol in base 10 on a strtok token (no sign,
no leading whitespace, as produced by strtok on these input files): the
value of the longest digit run at the front, 0 when there is none. -/
def strtolNat (s : String) : Nat :=
  natOfDigits (s.data.takeWhile Char.isDigit) 0

/-- Digit decomposition behind the strtof model: value of the integer
part, value of the fraction digits after an optional decimal point, and
the number of fraction digits. -/
def strtofParts (s : String) : Nat × Nat × Nat :=
  let ipart := s.data.takeWhile Char.isDigit
  let rest := s.data.drop ipart.length
  match rest with
  | '.' :: r =>
    let fpart := r.takeWhile Char.isDigit
    (natOfDigits ipart 0, natOfDigits fpart 0, fpart.length)
  | _ => (natOfDigits ipart 0, 0, 0)

/-- Model of the C library strtof on a strtok token: integer part, then an
optional fraction after a decimal point; 0 when no digits lead. -/
def strtofQ (s : String) : ℚ :=
  ((strtofParts s).1 : ℚ) + ((strtofParts s).2.1 : ℚ) / 10 ^ (strtofParts s).2.2

/-- Function fillPerson of SpreaderDetectorBackend.c lines 390 to 403 on
the strtok token list of one people-file line: name is the first token,
id is strtol of the second, age is strtof of the third, probability starts
at 0. A missing token makes the source pass NULL into strtol or strtof
(undefined behaviour), modelled as `none`; the only other failure in the
source is calloc returning NULL, which is outside the model. Note the
source never validates the digits: non-numeric id or age tokens are
silently converted (strtol and strtof return 0 on them). -/
def fillPerson : List String → Option Person
  | name :: idTok :: ageTok :: _ =>
    some ⟨name, strtolNat idTok, strtofQ ageTok, 0⟩
  | _ => none

/-- Loop of readPeopleFile (SpreaderDetectorBackend.c lines 427 to 443):
one Person per line, failing as a whole when a line fails. -/
def readPeopleFile : List (List String) → Option (List Person)
  | [] => some []
  | line :: rest =>
    match fillPerson line with
    | some person =>
      match readPeopleFile rest with
      | some people => some (person :: people)
      | none => none
    | none => none

/-- Medical-action tier, one per output message template of
SpreaderDetectorParams.h lines 31, 38 and 44. -/
inductive Tier where
  | hospitalization : Tier
  | quarantine : Tier
  | clean : Tier
deriving DecidableEq

/-- One emitted output record: the chosen message template together with
the name and id it consumes. -/
structure OutLine where
  tier : Tier
  name : String
  id : Nat
deriving DecidableEq

/-- Threshold cascade of writeOutput, SpreaderDetectorBackend.c lines 536
to 550: at or epsilon-close to MEDICAL_SUPERVISION_THRESHOLD the
hospitalization template, else at or epsilon-close to
REGULAR_QUARANTINE_THRESHOLD the quarantine template, else the clean
template. -/
def classify (probability : ℚ) : Tier :=
  if probability ≥ MEDICAL_SUPERVISION_THRESHOLD ∨
      |probability - MEDICAL_SUPERVISION_THRESHOLD| < EPSILON then
    Tier.hospitalization
  else if probability ≥ REGULAR_QUARANTINE_THRESHOLD ∨
      |probability - REGULAR_QUARANTINE_THRESHOLD| < EPSILON then
    Tier.quarantine
  else
    Tier.clean

/-- One output record of writeOutput for the person at an index. -/
def outRecord (p : Person) : OutLine :=
  ⟨classify p.probability, p.name, p.id⟩

/-- Loop of writeOutput (SpreaderDetectorBackend.c lines 534 to 551): the
index i walks from peopleListSize - 1 down to 0, emitting one record per
person. `writeOutputFrom l n` emits the records for indices n - 1 down
to 0. -/
def writeOutputFrom (peopleList : List Person) : Nat → List OutLine
  | 0 => []
  | i + 1 => outRecord (peopleList.getD i defaultPerson) :: writeOutputFrom peopleList i

/-- Function writeOutput of SpreaderDetectorBackend.c lines 532 to 557 as
the full emitted record list. -/
def writeOutput (peopleList : List Person) : List OutLine :=
  writeOutputFrom peopleList peopleList.length

/-- People list sorted strictly ascending by id (ids are unique by the
input contract; this is the state after sortById in main). -/
def IdSorted (peopleList : List Person) : Prop :=
  List.Pairwise (fun a b => a.id < b.id) peopleList

/-- Some person in the list carries the given id. -/
def HasId (peopleList : List Person) (t : Nat) : Prop :=
  t ∈ peopleList.map Person.id

/-- Probability field of the first person carrying the given id. -/
def probOf (t : Nat) (peopleList : List Person) : ℚ :=
  ((peopleList.find? (fun p => p.id == t)).getD defaultPerson).probability

/-- Default meeting used by out-of-range `getD` reads in statements. -/
def defaultMeeting : Meeting := ⟨0, 0, 0, 0⟩

/-- Default output record used by out-of-range `getD` reads in
statements. -/
def defaultOutLine : OutLine := ⟨Tier.clean, "", 0⟩

/-- Concrete person used by witnesses: id 1, probability 1. -/
def alice : Person := ⟨"Alice", 1, 30, 1⟩

/-- Concrete person used by witnesses: id 2, probability 0. -/
def bob : Person := ⟨"Bob", 2, 40, 0⟩

/-- Concrete id-sorted two-person store used by witnesses. -/
def demoPeople : List Person := [alice, bob]

/-- Concrete person with probability equal to that of `tiedB`. -/
def tiedA : Person := ⟨"A", 1, 30, 1⟩

/-- Concrete person with probability equal to that of `tiedA`. -/
def tiedB : Person := ⟨"B", 2, 40, 1⟩

/-- Concrete person whose id is 2 ^ 32, outside the range the int-narrowed
difference in idCompare can represent faithfully. -/
def bigA : Person := ⟨"A", 4294967296, 0, 0⟩

/-- Concrete person with id 0. -/
def bigB : Person := ⟨"B", 0, 0, 0⟩

/-- Concrete origin person for the propagation runs: id 1, probability
still 0 before the meetings file is read. -/
def originAlice : Person := ⟨"Alice", 1, 30, 0⟩

/-- Concrete bystander for the propagation runs: id 2, probability 0. -/
def originBob : Person := ⟨"Bob", 2, 40, 0⟩

/-- Merging permutes: the output of `mergeAux` is a rearrangement of the
two inputs, at any fuel. -/
lemma mergeAux_perm (comp : Person → Person → Int) :
    ∀ (fuel : Nat) (a b : List Person), (mergeAux comp fuel a b).Perm (a ++ b) := by
  intro fuel
  induction fuel with
  | zero => intro a b; exact List.Perm.refl _
  | succ fuel ih =>
    intro a b
    match a, b with
    | [], b => simp [mergeAux]
    | x :: a, [] => simp [mergeAux]
    | x :: a, y :: b =>
      rw [mergeAux]
      split_ifs with h
      · exact (ih a (y :: b)).cons x
      · exact ((ih (x :: a) b).cons y).trans List.perm_middle.symm

/-- Sorting permutes: the output of `mergeSortAux` is a rearrangement of
the input, at any fuel. -/
lemma mergeSortAux_perm (comp : Person → Person → Int) :
    ∀ (fuel : Nat) (l : List Person), (mergeSortAux comp fuel l).Perm l := by
  intro fuel
  induction fuel with
  | zero => intro l; exact List.Perm.refl _
  | succ fuel ih =>
    intro l
    rw [mergeSortAux]
    split_ifs with h1 h2
    · exact List.Perm.refl _
    · exact List.Perm.refl _
    · refine (mergeAux_perm comp _ _ _).trans ?_
      refine ((ih _).append (ih _)).trans ?_
      rw [List.take_append_drop]

/-- Head of a merge comes from the head of one of the two inputs. -/
lemma mergeAux_head (comp : Person → Person → Int) :
    ∀ (fuel : Nat) (a b : List Person) (z : Person),
    (mergeAux comp fuel a b).head? = some z →
    a.head? = some z ∨ b.head? = some z := by
  intro fuel a b z h
  match fuel, a, b with
  | 0, [], b => exact Or.inr (by simpa [mergeAux] using h)
  | 0, x :: a, b => exact Or.inl (by simpa [mergeAux] using h)
  | fuel + 1, [], b => exact Or.inr (by simpa [mergeAux] using h)
  | fuel + 1, x :: a, [] => exact Or.inl (by simpa [mergeAux] using h)
  | fuel + 1, x :: a, y :: b =>
    rw [mergeAux] at h
    split_ifs at h with hc
    · exact Or.inl (by simpa using h)
    · exact Or.inr (by simpa using h)

/-- Key property of both comparators used by merging: whenever the
comparator does not put x strictly after y, it does not put y strictly
before x either. The idCompare version holds for ALL ids, wrap-around
included, because the two narrowed differences are negatives of each
other modulo 2 ^ 32. -/
lemma idCompare_flip (a b : Person) (h : 0 ≤ idCompare a b) :
    idCompare b a ≤ 0 := by
  simp only [idCompare, usub64, toInt32] at h ⊢
  split_ifs at h ⊢ <;> omega

/-- Flip property of probCompare: epsilon-equality is symmetric and the
strict branches exchange. -/
lemma probCompare_flip (a b : Person) (h : 0 ≤ probCompare a b) :
    probCompare b a ≤ 0 := by
  simp only [probCompare, EQUAL, GREATER, SMALLER] at h ⊢
  rw [abs_sub_comm] at h
  split_ifs at h ⊢ <;> try norm_num
  all_goals first | omega | linarith

/-- Merging two sequences with no adjacent inversion produces a sequence
with no adjacent inversion, for any comparator with the flip property. -/
lemma mergeAux_sorted (comp : Person → Person → Int)
    (hflip : ∀ x y, 0 ≤ comp x y → comp y x ≤ 0) :
    ∀ (fuel : Nat) (a b : List Person), a.length + b.length ≤ fuel →
    List.Chain' (fun x y => ¬ 0 < comp x y) a →
    List.Chain' (fun x y => ¬ 0 < comp x y) b →
    List.Chain' (fun x y => ¬ 0 < comp x y) (mergeAux comp fuel a b) := by
  intro fuel
  induction fuel with
  | zero =>
    intro a b hlen ha hb
    have ha0 : a = [] := by
      cases a with
      | nil => rfl
      | cons x a => simp at hlen
    have hb0 : b = [] := by
      cases b with
      | nil => rfl
      | cons x b => simp at hlen
    subst ha0; subst hb0
    exact List.chain'_nil
  | succ fuel ih =>
    intro a b hlen ha hb
    match a, b with
    | [], b => simpa [mergeAux] using hb
    | x :: a, [] => simpa [mergeAux] using ha
    | x :: a, y :: b =>
      have hlen' : a.length + (y :: b).length ≤ fuel := by
        simp only [List.length_cons] at hlen ⊢
        omega
      have hlen'' : (x :: a).length + b.length ≤ fuel := by
        simp only [List.length_cons] at hlen ⊢
        omega
      rw [mergeAux]
      split_ifs with hc
      · refine List.chain'_cons'.mpr ⟨?_, ih a (y :: b) hlen' ha.tail hb⟩
        intro z hz
        rcases mergeAux_head comp fuel a (y :: b) z hz with h1 | h1
        · cases a with
          | nil => simp at h1
          | cons w a =>
            simp only [List.head?_cons, Option.some.injEq] at h1
            subst h1
            exact (List.chain'_cons.mp ha).1
        · simp only [List.head?_cons, Option.some.injEq] at h1
          subst h1
          omega
      · refine List.chain'_cons'.mpr ⟨?_, ih (x :: a) b hlen'' ha hb.tail⟩
        intro z hz
        rcases mergeAux_head comp fuel (x :: a) b z hz with h1 | h1
        · simp only [List.head?_cons, Option.some.injEq] at h1
          subst h1
          have := hflip x y (by omega)
          omega
        · cases b with
          | nil => simp at h1
          | cons w b =>
            simp only [List.head?_cons, Option.some.injEq] at h1
            subst h1
            exact (List.chain'_cons.mp hb).1

/-- Merge sort output has no adjacent inversion, for any comparator with
the flip property, at fuel at least the length. -/
lemma mergeSortAux_sorted (comp : Person → Person → Int)
    (hflip : ∀ x y, 0 ≤ comp x y → comp y x ≤ 0) :
    ∀ (fuel : Nat) (l : List Person), l.length ≤ fuel →
    List.Chain' (fun x y => ¬ 0 < comp x y) (mergeSortAux comp fuel l) := by
  intro fuel
  induction fuel with
  | zero =>
    intro l hl
    have : l = [] := by
      cases l with
      | nil => rfl
      | cons x l => simp at hl
    subst this
    exact List.chain'_nil
  | succ fuel ih =>
    intro l hl
    rw [mergeSortAux]
    split_ifs with h1 h2
    · cases l with
      | nil => exact List.chain'_nil
      | cons x l => simp at h1
    · match l, h1, h2 with
      | [x], _, _ => exact List.chain'_singleton x
      | [], h1, _ => simp at h1
      | x :: y :: l, _, h2 => simp at h2; omega
    · have hta : (l.take (l.length / 2)).length ≤ fuel := by
        simp only [List.length_take]
        omega
      have htd : (l.drop (l.length / 2)).length ≤ fuel := by
        simp only [List.length_drop]
        omega
      rw [merge]
      exact mergeAux_sorted comp hflip _ _ _ (le_refl _) (ih _ hta) (ih _ htd)

/-- Claim C9, counterexample. With a.id = 2 ^ 32 and b.id = 0 the
unsigned 64-bit difference is 2 ^ 32, whose narrowing to a 32-bit int is
0, so idCompare reports equality for two distinct ids: the comparator is
not a correct three-way comparison for all unsigned identifier values. -/
theorem idCompare_overflow_cex :
    idCompare bigA bigB = 0 ∧ bigB.id < bigA.id ∧ ¬ 0 < idCompare bigA bigB := by
  refine ⟨?_, by decide, ?_⟩ <;>
    · simp only [idCompare, usub64, toInt32, bigA, bigB]
      decide

/-- Claim C9 (amended): for identifiers below 2 ^ 31 the comparator
idCompare is a correct three-way ascending numeric comparison: negative
exactly when a.id < b.id, positive exactly when a.id > b.id, and zero
exactly when the ids are equal. (For larger identifiers the unsigned
subtraction narrowed to int can wrap, see the counterexample.) -/
theorem idCompare_correct_small (a b : Person)
    (ha : a.id < 2 ^ 31) (hb : b.id < 2 ^ 31) :
    (idCompare a b < 0 ↔ a.id < b.id) ∧
    (0 < idCompare a b ↔ b.id < a.id) ∧
    (idCompare a b = 0 ↔ a.id = b.id) := by
  simp only [idCompare, usub64, toInt32]
  split_ifs with h <;>
    refine ⟨⟨fun h1 => by omega, fun h1 => by omega⟩,
      ⟨fun h1 => by omega, fun h1 => by omega⟩,
      ⟨fun h1 => by omega, fun h1 => by omega⟩⟩

/-- Claim C9, witness: the amended statement instantiated at ids 1
and 2. -/
theorem idCompare_correct_small_witness :
    (idCompare alice bob < 0 ↔ alice.id < bob.id) ∧
    (0 < idCompare alice bob ↔ bob.id < alice.id) ∧
    (idCompare alice bob = 0 ↔ alice.id = bob.id) :=
  idCompare_correct_small alice bob (by decide) (by decide)

/-- Claim C2: for every input and either of the two comparators actually
passed to mergeSort (idCompare by sortById, probCompare by
sortByProbability), the output is a permutation of the input and has no
adjacent pair that the comparator orders strictly descending. -/
theorem mergeSort_perm_and_sorted (comp : Person → Person → Int)
    (hcomp : comp = idCompare ∨ comp = probCompare) (l : List Person) :
    (mergeSort comp l).Perm l ∧
    List.Chain' (fun x y => ¬ 0 < comp x y) (mergeSort comp l) := by
  have hflip : ∀ x y, 0 ≤ comp x y → comp y x ≤ 0 := by
    rcases hcomp with h | h <;> subst h
    · exact idCompare_flip
    · exact probCompare_flip
  exact ⟨mergeSortAux_perm comp _ l, mergeSortAux_sorted comp hflip _ l (le_refl _)⟩

/-- Claim C2, witness: the theorem applied to idCompare and a concrete
two-person list. -/
theorem mergeSort_perm_and_sorted_witness :
    (mergeSort idCompare demoPeople).Perm demoPeople ∧
    List.Chain' (fun x y => ¬ 0 < idCompare x y) (mergeSort idCompare demoPeople) :=
  mergeSort_perm_and_sorted idCompare (Or.inl rfl) demoPeople

/-- Merging two blocks every cross pair of which is strictly ascending
just concatenates them, at any fuel. -/
lemma mergeAux_append (comp : Person → Person → Int) :
    ∀ (fuel : Nat) (a b : List Person),
    (∀ x ∈ a, ∀ y ∈ b, comp x y < 0) → mergeAux comp fuel a b = a ++ b := by
  intro fuel
  induction fuel with
  | zero => intro a b _; rfl
  | succ fuel ih =>
    intro a b h
    match a, b with
    | [], b => simp [mergeAux]
    | x :: a, [] => simp [mergeAux]
    | x :: a, y :: b =>
      rw [mergeAux, if_pos (h x (by simp) y (by simp))]
      rw [ih a (y :: b) (fun u hu v hv => h u (by simp [hu]) v hv)]
      rfl

/-- Merge sort leaves a strictly pairwise-ascending list unchanged, at
any fuel. -/
lemma mergeSortAux_of_pairwise (comp : Person → Person → Int) :
    ∀ (fuel : Nat) (l : List Person),
    List.Pairwise (fun x y => comp x y < 0) l → mergeSortAux comp fuel l = l := by
  intro fuel
  induction fuel with
  | zero => intro l _; rfl
  | succ fuel ih =>
    intro l h
    rw [mergeSortAux]
    split_ifs with h1 h2
    · rfl
    · rfl
    · have h' : List.Pairwise (fun x y => comp x y < 0)
          (l.take (l.length / 2) ++ l.drop (l.length / 2)) := by
        rw [List.take_append_drop]
        exact h
      obtain ⟨hta, htd, hcross⟩ := List.pairwise_append.mp h'
      rw [merge, ih _ hta, ih _ htd, mergeAux_append comp _ _ _ hcross,
        List.take_append_drop]

/-- Claim C8 (amended): re-sorting is the identity on a STRICTLY sorted
sequence (every earlier record compares strictly below every later one).
When the sorted input contains records that compare equal the claim
fails: the merge step takes from the second half on ties, so a tied pair
in sorted position is swapped by a re-sort (see the counterexample). -/
theorem mergeSort_fix_of_strictly_sorted (comp : Person → Person → Int)
    (hcomp : comp = idCompare ∨ comp = probCompare) (l : List Person)
    (hsorted : List.Pairwise (fun x y => comp x y < 0) l) :
    mergeSort comp l = l :=
  mergeSortAux_of_pairwise comp l.length l hsorted

/-- Claim C8, witness: the amended statement applied to idCompare and a
concrete strictly id-sorted list. -/
theorem mergeSort_fix_of_strictly_sorted_witness :
    mergeSort idCompare demoPeople = demoPeople :=
  mergeSort_fix_of_strictly_sorted idCompare (Or.inl rfl) demoPeople (by
    refine List.pairwise_cons.mpr ⟨?_, List.pairwise_singleton _ _⟩
    intro p hp
    rw [List.mem_singleton.mp hp]
    simp only [idCompare, usub64, toInt32, alice, bob]
    decide)

/-- Claim C8, counterexample: a two-person list with equal probabilities
is already sorted for probCompare (its only adjacent pair compares
equal), yet mergeSort with probCompare swaps the two records, so sorting
an already-sorted sequence does not always yield an identical sequence. -/
theorem mergeSort_tie_cex :
    List.Chain' (fun x y => ¬ 0 < probCompare x y) [tiedA, tiedB] ∧
    mergeSort probCompare [tiedA, tiedB] ≠ [tiedA, tiedB] := by
  constructor
  · refine List.chain'_cons.mpr ⟨?_, List.chain'_singleton _⟩
    norm_num [probCompare, tiedA, tiedB, EPSILON, EQUAL]
  · have hstep : mergeSort probCompare [tiedA, tiedB] = [tiedB, tiedA] := by
      norm_num [mergeSort, mergeSortAux, merge, mergeAux, probCompare,
        tiedA, tiedB, EPSILON, EQUAL, GREATER, SMALLER]
    rw [hstep]
    simp [tiedA, tiedB]

/-- Pairwise relation between positions read with getD, for reflexive
relations. -/
lemma pairwise_getD {R : Person → Person → Prop} (hrefl : ∀ x, R x x)
    (l : List Person) (hp : List.Pairwise R l) (i j : Nat) (hij : i ≤ j)
    (hj : j < l.length) :
    R (l.getD i defaultPerson) (l.getD j defaultPerson) := by
  rcases Nat.lt_or_eq_of_le hij with h | h
  · rw [List.getD_eq_getElem _ _ (lt_trans h hj), List.getD_eq_getElem _ _ hj]
    exact List.pairwise_iff_getElem.mp hp i j (lt_trans h hj) hj h
  · subst h
    exact hrefl _

/-- Correctness of binarySearchById: on an id-sorted list (ascending), if
the target id occurs inside the inclusive search range and the fuel
exceeds the range size (so the source recursion would terminate), the
search returns an in-range index whose record carries exactly the target
id. -/
lemma binarySearchById_found (l : List Person) (t : Nat)
    (hsorted : List.Pairwise (fun a b => a.id ≤ b.id) l) :
    ∀ (fuel : Nat) (start stop : Int), 0 ≤ start → stop < (l.length : Int) →
    (∃ i : Nat, start ≤ (i : Int) ∧ (i : Int) ≤ stop ∧
      (l.getD i defaultPerson).id = t) →
    (stop - start).toNat < fuel →
    ∃ j : Int, binarySearchById l t fuel start stop = some j ∧
      start ≤ j ∧ j ≤ stop ∧ (l.getD j.toNat defaultPerson).id = t := by
  intro fuel
  induction fuel with
  | zero =>
    intro start stop _ _ _ hfuel
    exact absurd hfuel (Nat.not_lt_zero _)
  | succ fuel ih =>
    intro start stop h0 hlen hpres hfuel
    obtain ⟨i, hi1, hi2, hit⟩ := hpres
    have hilen : i < l.length := by omega
    have hss : start ≤ stop := le_trans hi1 hi2
    simp only [binarySearchById]
    rw [Int.tdiv_eq_ediv (by omega) (by omega)]
    set mid := start + (stop - start) / 2 with hmid
    have hm1 : start ≤ mid := by omega
    have hm2 : mid ≤ stop := by omega
    have hmlen : mid.toNat < l.length := by omega
    by_cases heq : (l.getD mid.toNat defaultPerson).id = t
    · rw [if_pos heq]
      exact ⟨mid, rfl, hm1, hm2, heq⟩
    · rw [if_neg heq]
      by_cases hgt : (l.getD mid.toNat defaultPerson).id > t
      · rw [if_pos hgt]
        have hilt : (i : Int) < mid := by
          by_contra hcon
          push_neg at hcon
          have hle := pairwise_getD (fun x => le_refl x.id) l hsorted
            mid.toNat i (by omega) hilen
          omega
        obtain ⟨j, hj, hj1, hj2, hjt⟩ := ih start (mid - 1) h0 (by omega)
          ⟨i, hi1, by omega, hit⟩ (by omega)
        exact ⟨j, hj, hj1, by omega, hjt⟩
      · rw [if_neg hgt]
        have hilt : mid < (i : Int) := by
          by_contra hcon
          push_neg at hcon
          have hle := pairwise_getD (fun x => le_refl x.id) l hsorted
            i mid.toNat (by omega) hmlen
          omega
        obtain ⟨j, hj, hj1, hj2, hjt⟩ := ih (mid + 1) stop (by omega) hlen
          ⟨i, by omega, hi2, hit⟩ (by omega)
        exact ⟨j, hj, by omega, hj2, hjt⟩

/-- Claim C3: on a sequence sorted ascending by id, binarySearchById with
the inclusive bounds 0 and size - 1 (and fuel covering the whole range,
as the source recursion always terminates on a present target) returns an
index whose record id equals the target, for every target id present in
the sequence. -/
theorem binarySearchById_finds_present (l : List Person) (t : Nat)
    (hsorted : List.Pairwise (fun a b => a.id ≤ b.id) l)
    (hpres : HasId l t) :
    ∃ j : Int, binarySearchById l t (l.length + 1) 0 ((l.length : Int) - 1) = some j ∧
      0 ≤ j ∧ j.toNat < l.length ∧ (l.getD j.toNat defaultPerson).id = t := by
  obtain ⟨p, hp, hpt⟩ := List.mem_map.mp hpres
  obtain ⟨i, hilen, hie⟩ := List.mem_iff_getElem.mp hp
  have hgd : (l.getD i defaultPerson).id = t := by
    rw [List.getD_eq_getElem _ _ hilen, hie]
    exact hpt
  obtain ⟨j, hj, hj1, hj2, hjt⟩ := binarySearchById_found l t hsorted
    (l.length + 1) 0 ((l.length : Int) - 1) (le_refl 0) (by omega)
    ⟨i, by omega, by omega, hgd⟩ (by omega)
  exact ⟨j, hj, hj1, by omega, hjt⟩

/-- Claim C3, witness: the theorem applied to a concrete id-sorted list
and the present id 2. -/
theorem binarySearchById_finds_present_witness :
    ∃ j : Int, binarySearchById demoPeople 2 (demoPeople.length + 1) 0
        ((demoPeople.length : Int) - 1) = some j ∧
      0 ≤ j ∧ j.toNat < demoPeople.length ∧
      (demoPeople.getD j.toNat defaultPerson).id = 2 :=
  binarySearchById_finds_present demoPeople 2 (by decide)
    (by unfold HasId; decide)

/-- Claim C5: a probability at or above 0.3, or within 1e-9 of 0.3, is
classified in the hospitalization tier and never in the quarantine tier;
otherwise at or above 0.1, or within 1e-9 of 0.1, the quarantine tier;
otherwise the no-serious-risk tier. -/
theorem classify_thresholds (p : ℚ) :
    ((p ≥ MEDICAL_SUPERVISION_THRESHOLD ∨
        |p - MEDICAL_SUPERVISION_THRESHOLD| < EPSILON) →
      classify p = Tier.hospitalization ∧ classify p ≠ Tier.quarantine) ∧
    (¬ (p ≥ MEDICAL_SUPERVISION_THRESHOLD ∨
        |p - MEDICAL_SUPERVISION_THRESHOLD| < EPSILON) →
      (p ≥ REGULAR_QUARANTINE_THRESHOLD ∨
        |p - REGULAR_QUARANTINE_THRESHOLD| < EPSILON) →
      classify p = Tier.quarantine) ∧
    (¬ (p ≥ MEDICAL_SUPERVISION_THRESHOLD ∨
        |p - MEDICAL_SUPERVISION_THRESHOLD| < EPSILON) →
      ¬ (p ≥ REGULAR_QUARANTINE_THRESHOLD ∨
        |p - REGULAR_QUARANTINE_THRESHOLD| < EPSILON) →
      classify p = Tier.clean) := by
  unfold classify
  refine ⟨fun h1 => ?_, fun h1 h2 => ?_, fun h1 h2 => ?_⟩
  · simp [h1]
  · simp [h1, h2]
  · simp [h1, h2]

/-- Claim C5, witness: at probability exactly 0.3 the hospitalization
tier is chosen and the quarantine tier is not. -/
theorem classify_thresholds_witness :
    classify (3 / 10) = Tier.hospitalization ∧
    classify (3 / 10) ≠ Tier.quarantine :=
  (classify_thresholds (3 / 10)).1
    (Or.inl (by norm_num [MEDICAL_SUPERVISION_THRESHOLD]))

/-- writeOutputFrom emits exactly one record per index. -/
lemma writeOutputFrom_length (l : List Person) :
    ∀ n : Nat, (writeOutputFrom l n).length = n := by
  intro n
  induction n with
  | zero => rfl
  | succ n ih => simp [writeOutputFrom, ih]

/-- Record i of writeOutputFrom l n is the record of the person at index
n - 1 - i: the loop walks the store in reverse index order. -/
lemma writeOutputFrom_getD (l : List Person) :
    ∀ (n i : Nat), i < n →
    (writeOutputFrom l n).getD i defaultOutLine =
      outRecord (l.getD (n - 1 - i) defaultPerson) := by
  intro n
  induction n with
  | zero => intro i hi; exact absurd hi (Nat.not_lt_zero _)
  | succ n ih =>
    intro i hi
    cases i with
    | zero => simp [writeOutputFrom]
    | succ i =>
      have hi' : i < n := Nat.lt_of_succ_lt_succ hi
      have harith : n + 1 - 1 - (i + 1) = n - 1 - i := by omega
      simp only [writeOutputFrom, List.getD_cons_succ]
      rw [ih i hi', harith]

/-- Claim C4: on a store sorted by probability ascending, the reporter
emits exactly one record per person, walking the store in reverse index
order (hence from the highest probability down to the lowest), each
record carrying the name and the id of its person. -/
theorem writeOutput_one_line_per_person_descending (l : List Person)
    (hsorted : List.Pairwise (fun a b => a.probability ≤ b.probability) l) :
    (writeOutput l).length = l.length ∧
    (∀ i : Nat, i < l.length →
      ((writeOutput l).getD i defaultOutLine).name =
        (l.getD (l.length - 1 - i) defaultPerson).name ∧
      ((writeOutput l).getD i defaultOutLine).id =
        (l.getD (l.length - 1 - i) defaultPerson).id ∧
      (writeOutput l).getD i defaultOutLine =
        outRecord (l.getD (l.length - 1 - i) defaultPerson)) ∧
    (∀ i j : Nat, i ≤ j → j < l.length →
      (l.getD (l.length - 1 - j) defaultPerson).probability ≤
        (l.getD (l.length - 1 - i) defaultPerson).probability) := by
  refine ⟨writeOutputFrom_length l l.length, ?_, ?_⟩
  · intro i hi
    rw [writeOutput, writeOutputFrom_getD l l.length i hi]
    exact ⟨rfl, rfl, rfl⟩
  · intro i j hij hj
    exact pairwise_getD (fun x => le_refl x.probability) l hsorted
      (l.length - 1 - j) (l.length - 1 - i) (by omega) (by omega)

/-- Claim C4, witness: the theorem applied to a concrete store sorted by
probability ascending. -/
theorem writeOutput_one_line_per_person_descending_witness :
    (writeOutput [bob, alice]).length = [bob, alice].length ∧
    (∀ i : Nat, i < [bob, alice].length →
      ((writeOutput [bob, alice]).getD i defaultOutLine).name =
        ([bob, alice].getD ([bob, alice].length - 1 - i) defaultPerson).name ∧
      ((writeOutput [bob, alice]).getD i defaultOutLine).id =
        ([bob, alice].getD ([bob, alice].length - 1 - i) defaultPerson).id ∧
      (writeOutput [bob, alice]).getD i defaultOutLine =
        outRecord ([bob, alice].getD ([bob, alice].length - 1 - i) defaultPerson)) ∧
    (∀ i j : Nat, i ≤ j → j < [bob, alice].length →
      ([bob, alice].getD ([bob, alice].length - 1 - j) defaultPerson).probability ≤
        ([bob, alice].getD ([bob, alice].length - 1 - i) defaultPerson).probability) :=
  writeOutput_one_line_per_person_descending [bob, alice] (by
    refine List.pairwise_cons.mpr ⟨?_, List.pairwise_singleton _ _⟩
    intro p hp
    rw [List.mem_singleton.mp hp]
    norm_num [alice, bob])

/-- Claim C6, counterexample: the line with tokens Alice, abc, xyz has a
non-numeric id and a non-numeric age, yet ingestion does not fail: strtol
and strtof silently yield 0 and the record is stored with substitute
values. -/
theorem fillPerson_nonnumeric_cex :
    readPeopleFile [["Alice", "abc", "xyz"]] = some [⟨"Alice", 0, 0, 0⟩] ∧
    fillPerson ["Alice", "abc", "xyz"] ≠ none := by
  have hid : strtolNat ("abc") = 0 := by decide
  have hage : strtofParts ("xyz") = (0, 0, 0) := by decide
  have hfp : fillPerson ["Alice", "abc", "xyz"] = some ⟨"Alice", 0, 0, 0⟩ := by
    rw [fillPerson, hid, strtofQ, hage]
    norm_num
  constructor
  · simp only [readPeopleFile, hfp]
  · rw [hfp]
    exact fun h => Option.noConfusion h

/-- Claim C6 (amended): a line with a MISSING field does make ingestion
fail (in the source by passing NULL into strtol or strtof, undefined
behaviour, modelled as none), but a line whose id field is non-numeric is
NOT rejected: fillPerson succeeds and silently stores 0 as the id
(likewise a non-numeric age is stored as 0 by strtof); fillPerson fails
on no other token-level condition (its only other failure is calloc
returning NULL). -/
theorem fillPerson_defaults_nonnumeric (name idTok ageTok : String)
    (rest : List String) (hid : ∀ c ∈ idTok.data, ¬ c.isDigit) :
    fillPerson (name :: idTok :: ageTok :: rest) =
      some ⟨name, 0, strtofQ ageTok, 0⟩ ∧
    fillPerson [name] = none ∧ fillPerson [name, idTok] = none ∧
    fillPerson ([] : List String) = none := by
  have h0 : strtolNat idTok = 0 := by
    rw [strtolNat]
    cases hd : idTok.data with
    | nil => rfl
    | cons c cs =>
      have hc : ¬ c.isDigit := hid c (by rw [hd]; exact List.mem_cons_self c cs)
      rw [List.takeWhile_cons]
      simp [hc, natOfDigits]
  exact ⟨by rw [fillPerson, h0], rfl, rfl, rfl⟩

/-- Claim C6, witness: the amended statement at the concrete tokens
Alice, abc, 30. -/
theorem fillPerson_defaults_nonnumeric_witness :
    fillPerson ["Alice", "abc", "30"] = some ⟨"Alice", 0, strtofQ ("30"), 0⟩ ∧
    fillPerson ["Alice"] = none ∧ fillPerson ["Alice", "abc"] = none ∧
    fillPerson ([] : List String) = none :=
  fillPerson_defaults_nonnumeric ("Alice") ("abc") ("30") [] (by decide)

/-- Unfolding of probOf over a cons cell. -/
lemma probOf_cons (y : Nat) (x : Person) (rest : List Person) :
    probOf y (x :: rest) = if x.id = y then x.probability else probOf y rest := by
  by_cases h : x.id = y
  · simp [probOf, List.find?_cons, h]
  · simp [probOf, List.find?_cons, h]

/-- Setting position j of an id-sorted list to a person with the id that
position already carries, then looking that id up, reads back the new
probability. -/
lemma probOf_set_self (l : List Person) :
    ∀ (j : Nat) (q : Person), j < l.length →
    q.id = (l.getD j defaultPerson).id → IdSorted l →
    probOf q.id (l.set j q) = q.probability := by
  induction l with
  | nil => intro j q hj _ _; exact absurd hj (by simp)
  | cons p tl ih =>
    intro j q hj hq hs
    cases j with
    | zero =>
      rw [List.set_cons_zero, probOf_cons, if_pos rfl]
    | succ j =>
      have hj' : j < tl.length := Nat.lt_of_succ_lt_succ hj
      have hq' : q.id = (tl.getD j defaultPerson).id := hq
      have hmem : tl.getD j defaultPerson ∈ tl := by
        rw [List.getD_eq_getElem _ _ hj']
        exact List.getElem_mem hj'
      have hne : ¬ p.id = q.id := by
        have := (List.pairwise_cons.mp hs).1 _ hmem
        omega
      rw [List.set_cons_succ, probOf_cons, if_neg hne]
      exact ih j q hj' hq' (List.pairwise_cons.mp hs).2

/-- Setting position j to a person with the id that position already
carries leaves the lookup of every other id unchanged. -/
lemma probOf_set_other (l : List Person) :
    ∀ (j : Nat) (q : Person) (y : Nat),
    q.id = (l.getD j defaultPerson).id → y ≠ q.id →
    probOf y (l.set j q) = probOf y l := by
  induction l with
  | nil => intro j q y _ _; rfl
  | cons p tl ih =>
    intro j q y hq hy
    cases j with
    | zero =>
      rw [List.set_cons_zero, probOf_cons, probOf_cons]
      rw [List.getD_cons_zero] at hq
      rw [if_neg (fun h => hy h.symm), if_neg (fun h => hy (hq.trans h).symm)]
    | succ j =>
      rw [List.set_cons_succ, probOf_cons, probOf_cons]
      by_cases hp : p.id = y
      · rw [if_pos hp, if_pos hp]
      · rw [if_neg hp, if_neg hp]
        exact ih j q y hq hy

/-- On an id-sorted list, looking up the id found at position i reads the
probability stored at position i. -/
lemma probOf_getD_self (l : List Person) :
    ∀ i : Nat, i < l.length → IdSorted l →
    probOf ((l.getD i defaultPerson).id) l = (l.getD i defaultPerson).probability := by
  induction l with
  | nil => intro i hi _; exact absurd hi (by simp)
  | cons p tl ih =>
    intro i hi hs
    cases i with
    | zero =>
      simp only [List.getD_cons_zero]
      rw [probOf_cons, if_pos rfl]
    | succ i =>
      have hi' : i < tl.length := Nat.lt_of_succ_lt_succ hi
      have hmem : tl.getD i defaultPerson ∈ tl := by
        rw [List.getD_eq_getElem _ _ hi']
        exact List.getElem_mem hi'
      have hne : ¬ p.id = (tl.getD i defaultPerson).id := by
        have := (List.pairwise_cons.mp hs).1 _ hmem
        omega
      rw [List.getD_cons_succ, probOf_cons, if_neg ?hne]
      · exact ih i hi' (List.pairwise_cons.mp hs).2
      · exact hne

/-- Setting position j to a person with the id that position already
carries does not change the id sequence. -/
lemma map_id_set (l : List Person) (j : Nat) (q : Person) (hj : j < l.length)
    (hq : q.id = (l.getD j defaultPerson).id) :
    (l.set j q).map Person.id = l.map Person.id := by
  apply List.ext_getElem (by simp)
  intro i h1 h2
  simp only [List.getElem_map, List.getElem_set]
  split_ifs with h
  · subst h
    rw [hq, List.getD_eq_getElem _ _ hj]
  · rfl

/-- Lists with the same id sequence are id-sorted together. -/
lemma idSorted_of_map_eq (l s : List Person)
    (h : s.map Person.id = l.map Person.id) (hs : IdSorted l) : IdSorted s := by
  have h1 : List.Pairwise (fun a b : Nat => a < b) (l.map Person.id) :=
    List.pairwise_map.mpr hs
  rw [← h] at h1
  exact List.pairwise_map.mp h1

/-- probUpdater on an id-sorted store containing both meeting ids: it
succeeds and returns the store with exactly the probability of the
infected id overwritten by infector probability times the crna factor. -/
lemma probUpdater_ok (l : List Person) (m : Meeting) (hs : IdSorted l)
    (h1 : HasId l m.infectorId) (h2 : HasId l m.infectedId) :
    ∃ s, probUpdater l m = some s ∧
      s.map Person.id = l.map Person.id ∧
      probOf m.infectedId s = probOf m.infectorId l * crna m.distance m.time ∧
      (∀ y : Nat, y ≠ m.infectedId → probOf y s = probOf y l) := by
  have hsle : List.Pairwise (fun a b => a.id ≤ b.id) l :=
    hs.imp (fun h => le_of_lt h)
  obtain ⟨j1, hj1, hj1a, hj1len, hj1t⟩ :=
    binarySearchById_finds_present l m.infectorId hsle h1
  obtain ⟨j2, hj2, hj2a, hj2len, hj2t⟩ :=
    binarySearchById_finds_present l m.infectedId hsle h2
  have hqid : ({ l.getD j2.toNat defaultPerson with
      probability := (l.getD j1.toNat defaultPerson).probability *
        crna m.distance m.time } : Person).id = (l.getD j2.toNat defaultPerson).id := rfl
  refine ⟨l.set j2.toNat { l.getD j2.toNat defaultPerson with
      probability := (l.getD j1.toNat defaultPerson).probability *
        crna m.distance m.time }, ?_, ?_, ?_, ?_⟩
  · simp only [probUpdater, hj1, hj2]
  · exact map_id_set l j2.toNat _ hj2len hqid
  · have := probOf_set_self l j2.toNat
      { l.getD j2.toNat defaultPerson with
        probability := (l.getD j1.toNat defaultPerson).probability *
          crna m.distance m.time } hj2len hqid hs
    rw [hqid, hj2t] at this
    rw [this]
    have hinf := probOf_getD_self l j1.toNat hj1len hs
    rw [hj1t] at hinf
    rw [hinf]
  · intro y hy
    refine probOf_set_other l j2.toNat _ y hqid ?_
    rw [hqid, hj2t]
    exact hy

/-- processMeetings on an id-sorted store that contains every id
mentioned by the meetings: it succeeds, never changes the id sequence,
and leaves the probability of every id that is never infected
unchanged. -/
lemma processMeetings_ok :
    ∀ (ms : List Meeting) (l : List Person), IdSorted l →
    (∀ m ∈ ms, HasId l m.infectorId ∧ HasId l m.infectedId) →
    ∃ s, processMeetings l ms = some s ∧
      s.map Person.id = l.map Person.id ∧
      (∀ y : Nat, (∀ m ∈ ms, m.infectedId ≠ y) → probOf y s = probOf y l) := by
  intro ms
  induction ms with
  | nil => intro l _ _; exact ⟨l, rfl, rfl, fun y _ => rfl⟩
  | cons m rest ih =>
    intro l hs hmem
    obtain ⟨s1, he1, hm1, _, ho1⟩ := probUpdater_ok l m hs
      (hmem m (List.mem_cons_self m rest)).1 (hmem m (List.mem_cons_self m rest)).2
    have hs1 : IdSorted s1 := idSorted_of_map_eq l s1 hm1 hs
    have hmem1 : ∀ m2 ∈ rest, HasId s1 m2.infectorId ∧ HasId s1 m2.infectedId := by
      intro m2 hm2
      have := hmem m2 (List.mem_cons_of_mem m hm2)
      unfold HasId at this ⊢
      rw [hm1]
      exact this
    obtain ⟨s2, he2, hm2, ho2⟩ := ih s1 hs1 hmem1
    refine ⟨s2, ?_, ?_, ?_⟩
    · simp only [processMeetings, he1]
      exact he2
    · rw [hm2, hm1]
    · intro y hy
      rw [ho2 y (fun m2 hm2 => hy m2 (List.mem_cons_of_mem m hm2)),
        ho1 y (fun h => hy m (List.mem_cons_self m rest) h.symm)]

/-- processMeetings over a concatenation runs the two parts in
sequence. -/
lemma processMeetings_append :
    ∀ (ms1 ms2 : List Meeting) (l : List Person),
    processMeetings l (ms1 ++ ms2) =
      (processMeetings l ms1).bind (fun s => processMeetings s ms2) := by
  intro ms1
  induction ms1 with
  | nil => intro ms2 l; rfl
  | cons m rest ih =>
    intro ms2 l
    simp only [List.cons_append, processMeetings]
    cases probUpdater l m with
    | none => rfl
    | some s => exact ih ms2 s

/-- Claim C1: over an id-sorted store in which every meeting id resolves,
each meeting line overwrites the probability of its infected person with
infector probability times the crna factor, so after the whole file the
probability of a person is the value computed by the LAST meeting in
which that person is the infected party: the final store agrees, on that
id, with the value produced from the state just before that meeting,
regardless of any earlier meetings that infected the same person. -/
theorem processMeetings_last_meeting_wins (store : List Person)
    (ms : List Meeting) (k : Nat) (x : Nat)
    (hs : IdSorted store)
    (hpres : ∀ m ∈ ms, HasId store m.infectorId ∧ HasId store m.infectedId)
    (hk : k < ms.length)
    (hinf : (ms.getD k defaultMeeting).infectedId = x)
    (hlast : ∀ j : Nat, k < j → j < ms.length →
      (ms.getD j defaultMeeting).infectedId ≠ x) :
    ∃ sFinal sBefore, processMeetings store ms = some sFinal ∧
      processMeetings store (ms.take k) = some sBefore ∧
      probOf x sFinal =
        probOf (ms.getD k defaultMeeting).infectorId sBefore *
          crna (ms.getD k defaultMeeting).distance (ms.getD k defaultMeeting).time := by
  have hgd : ms.getD k defaultMeeting = ms[k] := List.getD_eq_getElem ms defaultMeeting hk
  have hdecomp : ms = ms.take k ++ (ms.getD k defaultMeeting :: ms.drop (k + 1)) := by
    rw [hgd]
    conv_lhs => rw [← List.take_append_drop k ms]
    rw [List.drop_eq_getElem_cons hk]
  obtain ⟨sk, hesk, hmsk, _⟩ := processMeetings_ok (ms.take k) store hs
    (fun m hm => hpres m (List.take_subset k ms hm))
  have hssk : IdSorted sk := idSorted_of_map_eq store sk hmsk hs
  have hmemk : ms.getD k defaultMeeting ∈ ms := by
    rw [hgd]
    exact List.getElem_mem hk
  have hpresk : HasId sk (ms.getD k defaultMeeting).infectorId ∧
      HasId sk (ms.getD k defaultMeeting).infectedId := by
    have := hpres _ hmemk
    unfold HasId at this ⊢
    rw [hmsk]
    exact this
  obtain ⟨s1, he1, hm1, hp1, _⟩ :=
    probUpdater_ok sk (ms.getD k defaultMeeting) hssk hpresk.1 hpresk.2
  have hss1 : IdSorted s1 := idSorted_of_map_eq sk s1 hm1 hssk
  obtain ⟨s2, he2, _, ho2⟩ := processMeetings_ok (ms.drop (k + 1)) s1 hss1 (by
    intro m hm
    have := hpres m (List.drop_subset (k + 1) ms hm)
    unfold HasId at this ⊢
    rw [hm1, hmsk]
    exact this)
  refine ⟨s2, sk, ?_, hesk, ?_⟩
  · conv_lhs => rw [hdecomp]
    rw [processMeetings_append, hesk]
    show processMeetings sk (ms.getD k defaultMeeting :: ms.drop (k + 1)) = some s2
    simp only [processMeetings, he1]
    exact he2
  · have hdropx : ∀ m ∈ ms.drop (k + 1), m.infectedId ≠ x := by
      intro m hm
      obtain ⟨idx, hidx, hide⟩ := List.mem_iff_getElem.mp hm
      have hlen : idx < ms.length - (k + 1) := by
        simpa using hidx
      have hm2 : m = ms.getD (k + 1 + idx) defaultMeeting := by
        rw [List.getD_eq_getElem ms defaultMeeting (by omega), ← hide,
          List.getElem_drop]
      rw [hm2]
      exact hlast (k + 1 + idx) (by omega) (by omega)
    rw [ho2 x hdropx, ← hinf, hp1]

/-- Claim C1, witness: a concrete store and two meetings that both infect
id 2; the theorem applied at the last of them (k = 1). -/
theorem processMeetings_last_meeting_wins_witness :
    ∃ sFinal sBefore,
      processMeetings demoPeople [⟨1, 2, 1, 30⟩, ⟨1, 2, 2, 30⟩] = some sFinal ∧
      processMeetings demoPeople ([⟨1, 2, 1, 30⟩, ⟨1, 2, 2, 30⟩].take 1) = some sBefore ∧
      probOf 2 sFinal =
        probOf ([(⟨1, 2, 1, 30⟩ : Meeting), ⟨1, 2, 2, 30⟩].getD 1 defaultMeeting).infectorId sBefore *
          crna ([(⟨1, 2, 1, 30⟩ : Meeting), ⟨1, 2, 2, 30⟩].getD 1 defaultMeeting).distance
            ([(⟨1, 2, 1, 30⟩ : Meeting), ⟨1, 2, 2, 30⟩].getD 1 defaultMeeting).time :=
  processMeetings_last_meeting_wins demoPeople [⟨1, 2, 1, 30⟩, ⟨1, 2, 2, 30⟩] 1 2
    (by unfold IdSorted; decide)
    (by unfold HasId; decide)
    (by decide)
    (by decide)
    (fun j h1 h2 => absurd h2 (by simp only [List.length_cons, List.length_nil]; omega))

/-- Claim C7 (amended): the transmission-factor division is NOT guarded:
probUpdater processes a meeting with distance 0 (or duration 0) exactly
like any other meeting, performing the division unconditionally and
storing the product, and raises no error condition whenever the two ids
resolve (in the C float semantics the stored value is the silently
propagated Inf or NaN). -/
theorem probUpdater_zero_distance_no_error (l : List Person) (m : Meeting)
    (hzero : m.distance = 0 ∨ m.time = 0) (hs : IdSorted l)
    (h1 : HasId l m.infectorId) (h2 : HasId l m.infectedId) :
    ∃ s, probUpdater l m = some s ∧
      probOf m.infectedId s = probOf m.infectorId l * crna m.distance m.time := by
  obtain ⟨s, he, _, hp, _⟩ := probUpdater_ok l m hs h1 h2
  exact ⟨s, he, hp⟩

/-- Claim C7, witness: the amended statement at a concrete zero-distance
meeting over a concrete id-sorted store. -/
theorem probUpdater_zero_distance_no_error_witness :
    ∃ s, probUpdater demoPeople ⟨1, 2, 0, 30⟩ = some s ∧
      probOf (Meeting.infectedId ⟨1, 2, 0, 30⟩) s =
        probOf (Meeting.infectorId ⟨1, 2, 0, 30⟩) demoPeople *
          crna (Meeting.distance ⟨1, 2, 0, 30⟩) (Meeting.time ⟨1, 2, 0, 30⟩) :=
  probUpdater_zero_distance_no_error demoPeople ⟨1, 2, 0, 30⟩ (Or.inl rfl)
    (by unfold IdSorted; decide) (by unfold HasId; decide) (by unfold HasId; decide)

/-- Claim C7, counterexample: a zero-distance meeting is processed
without any error condition being raised: probUpdater returns a normal
updated store (is not none) on the meeting with distance 0, silently
performing the unguarded division. -/
theorem probUpdater_zero_distance_cex :
    (probUpdater demoPeople ⟨1, 2, 0, 30⟩).isSome = true ∧
    probUpdater demoPeople ⟨1, 2, 0, 30⟩ ≠ none := by
  have h : (probUpdater demoPeople ⟨1, 2, 0, 30⟩).isSome = true := by decide
  exact ⟨h, Option.isSome_iff_ne_none.mp h⟩

/-- Claim C10: the origin probability of 1.0 is not protected. On the
concrete store holding Alice (id 1) and Bob (id 2), the meetings file
with origin 1 followed by the single meeting in which Bob (probability
still 0) infects Alice overwrites the origin probability: the run
succeeds and leaves Alice with probability 0 * crna = 0, not 1. -/
theorem readMeetingsFile_overwrites_origin :
    readMeetingsFile [originAlice, originBob] (some (1, [⟨2, 1, 2, 30⟩])) =
      some [⟨"Alice", 1, 30, 0⟩, ⟨"Bob", 2, 40, 0⟩] ∧
    probOf 1 [(⟨"Alice", 1, 30, 0⟩ : Person), ⟨"Bob", 2, 40, 0⟩] = 0 ∧
    (0 : ℚ) ≠ 1 := by
  have hsick : binarySearchById [originAlice, originBob] 1
      ([originAlice, originBob].length + 1) 0
      (([originAlice, originBob].length : Int) - 1) = some 0 := by decide
  have hset : ([originAlice, originBob].set (Int.toNat 0)
      { [originAlice, originBob].getD (Int.toNat 0) defaultPerson with
        probability := 1 }) = [⟨"Alice", 1, 30, 1⟩, originBob] := by
    simp [originAlice, originBob]
  have hinfector : binarySearchById [(⟨"Alice", 1, 30, 1⟩ : Person), originBob] 2
      ([(⟨"Alice", 1, 30, 1⟩ : Person), originBob].length + 1) 0
      (([(⟨"Alice", 1, 30, 1⟩ : Person), originBob].length : Int) - 1) = some 1 := by
    decide
  have hinfected : binarySearchById [(⟨"Alice", 1, 30, 1⟩ : Person), originBob] 1
      ([(⟨"Alice", 1, 30, 1⟩ : Person), originBob].length + 1) 0
      (([(⟨"Alice", 1, 30, 1⟩ : Person), originBob].length : Int) - 1) = some 0 := by
    decide
  refine ⟨?_, ?_, by norm_num⟩
  · simp only [readMeetingsFile, hsick]
    rw [hset]
    simp only [processMeetings, probUpdater, hinfector, hinfected]
    simp [originBob, crna, MIN_DISTANCE, MAX_TIME]
  · rw [probOf_cons]
    norm_num

end SpreaderDetector
